import Mathlib

/-!
Verification of the segment-consolidation core of the
recommendation-pipeline repository.

The definitions below are a shallow embedding of:
  * `calculate_iou`, `merge_overlapping_boxes`, `filter_small_segments`
    and the filter/merge steps of `main` from `src/segmentation.py`;
  * the result-aggregation part of `run_pipeline` from
    `src/direct_pipeline.py`.

Integer pixel coordinates are modelled by `Int`, Python float division by
exact rational arithmetic (`ℚ`), Python dicts with optional keys by
`Option` fields, JSON mappings by association lists and `List.lookup`,
and the Python `set` of used indices / processed labels by `Finset`.
-/

namespace RecPipeline

/-- An axis-aligned bounding box `[x1, y1, x2, y2]` in pixel coordinates,
as destructured by `calculate_iou` in `src/segmentation.py`. -/
structure Box where
  x1 : Int
  y1 : Int
  x2 : Int
  y2 : Int
deriving DecidableEq, Repr

/-- A segment record as exchanged between the pipeline stages: a dict with
keys `label` and `bbox`, and (after merging) a `merged_labels` key.  The
optional key is modelled by an `Option` field, `none` when absent. -/
structure Segment where
  label : Int
  bbox : Box
  merged_labels : Option (List Int) := none
deriving DecidableEq, Repr

/-- `calculate_iou` from `src/segmentation.py` (lines 33-52): intersection
over union of two boxes, `0` when the intersection rectangle is empty or
the union area is not positive. -/
def calculate_iou (box1 box2 : Box) : ℚ :=
  let x1_i := max box1.x1 box2.x1
  let y1_i := max box1.y1 box2.y1
  let x2_i := min box1.x2 box2.x2
  let y2_i := min box1.y2 box2.y2
  if x2_i ≤ x1_i ∨ y2_i ≤ y1_i then 0
  else
    let intersection := (x2_i - x1_i) * (y2_i - y1_i)
    let area1 := (box1.x2 - box1.x1) * (box1.y2 - box1.y1)
    let area2 := (box2.x2 - box2.x1) * (box2.y2 - box2.y1)
    let union := area1 + area2 - intersection
    if 0 < union then (intersection : ℚ) / (union : ℚ) else 0

/-- The component-wise union of boxes computed inside the merge loop of
`merge_overlapping_boxes` (lines 79-83): min of top-left coordinates,
max of bottom-right coordinates. -/
def unionBox (a b : Box) : Box :=
  ⟨min a.x1 b.x1, min a.y1 b.y1, max a.x2 b.x2, max a.y2 b.y2⟩

/-- The inner loop of `merge_overlapping_boxes` (lines 72-85): scan the
enumerated later segments, skip used indices, and on IoU strictly above
the threshold against the current accumulator box grow the accumulator to
the union, append the candidate's label, and mark the index used.
Returns the final accumulator box, label list, and used set. -/
def mergeInner (thr : ℚ) : List (Nat × Segment) → Box → List Int → Finset Nat →
    Box × List Int × Finset Nat
  | [], box, labels, used => (box, labels, used)
  | (j, seg2) :: rest, box, labels, used =>
    if j ∈ used then
      mergeInner thr rest box labels used
    else if thr < calculate_iou box seg2.bbox then
      mergeInner thr rest (unionBox box seg2.bbox) (labels ++ [seg2.label]) (insert j used)
    else
      mergeInner thr rest box labels used

/-- The outer loop of `merge_overlapping_boxes` (lines 62-91), running over
the enumerated segment list: skip used indices, seed an accumulator from
the current segment, run the inner scan over the strictly later segments,
and emit one merged record per seed. -/
def mergeOuter (thr : ℚ) : List (Nat × Segment) → Finset Nat → List Segment
  | [], _ => []
  | (i, seg1) :: rest, used =>
    if i ∈ used then
      mergeOuter thr rest used
    else
      let r := mergeInner thr rest seg1.bbox [seg1.label] (insert i used)
      { label := r.2.1.headD 0, bbox := r.1, merged_labels := some r.2.1 } ::
        mergeOuter thr rest r.2.2

/-- `merge_overlapping_boxes` from `src/segmentation.py` (lines 54-93). -/
def merge_overlapping_boxes (segments : List Segment) (iou_threshold : ℚ) : List Segment :=
  if segments.isEmpty then segments
  else mergeOuter iou_threshold segments.enum ∅

/-- The bbox area `(x2 - x1) * (y2 - y1)` computed in
`filter_small_segments` (line 105). -/
def segArea (seg : Segment) : Int :=
  (seg.bbox.x2 - seg.bbox.x1) * (seg.bbox.y2 - seg.bbox.y1)

/-- `filter_small_segments` from `src/segmentation.py` (lines 95-109):
when image dimensions are given the effective threshold is raised to at
least 1% of the image area, then segments with area below the threshold
are dropped, order preserved. -/
def filter_small_segments (segments : List Segment) (min_area : ℚ)
    (image_size : Option (Int × Int)) : List Segment :=
  let m : ℚ := match image_size with
    | some (w, h) => max min_area ((w * h : ℚ) * (1 / 100))
    | none => min_area
  segments.filter (fun seg => m ≤ (segArea seg : ℚ))

/-- Steps 4-5 of `main` in `src/segmentation.py` (lines 192-200): the
consolidation pipeline, filter then merge, each independently skippable
by its flag. -/
def consolidate (segments : List Segment) (min_area : ℚ) (iou_threshold : ℚ)
    (image_size : Option (Int × Int)) (no_filter no_merge : Bool) : List Segment :=
  let s1 := if no_filter then segments else filter_small_segments segments min_area image_size
  if no_merge then s1 else merge_overlapping_boxes s1 iou_threshold

/-- One entry of the recommendations document read by `run_pipeline` in
`src/direct_pipeline.py`: the `type` and `recommendations` keys may be
absent (the code reads them with `.get` and a default). -/
structure RecEntry where
  type : Option String
  recommendations : Option (List String)
deriving DecidableEq, Repr

/-- A value of the aggregated results mapping built by `run_pipeline`:
either an item/outfit entry (`bbox` present only for per-item entries)
or the annotated-image path string. -/
inductive OutValue where
  | entry (type : String) (bbox : Option Box) (recommendations : List String)
  | path (p : String)
deriving DecidableEq, Repr

/-- The per-segment aggregation loop of `run_pipeline` in
`src/direct_pipeline.py` (lines 71-88): iterate segments in order, skip
labels already processed, mark the label processed, and emit an entry
only when the recommendations document has that label, defaulting a
missing `type` to `"Unknown item"` and missing `recommendations` to `[]`.
The Python `set` of processed labels is a `Finset String`. -/
def aggLoop (recs : List (String × RecEntry)) :
    List Segment → Finset String → List (String × OutValue)
  | [], _ => []
  | seg :: rest, processed =>
    let label := toString seg.label
    if label ∈ processed then
      aggLoop recs rest processed
    else
      match recs.lookup label with
      | some rec_data =>
        (label, OutValue.entry (rec_data.type.getD "Unknown item") (some seg.bbox)
          (rec_data.recommendations.getD [])) :: aggLoop recs rest (insert label processed)
      | none => aggLoop recs rest (insert label processed)

/-- The result-assembly portion of `run_pipeline` in
`src/direct_pipeline.py` (lines 67-102): per-segment entries, then the
`overall_outfit` entry when present (its `type` defaulting to
`"Complete Outfit"`), then the annotated-image path when the artifact
exists.  `segments_data` is `none` when the segments document lacks the
`segments` key. -/
def run_pipeline_results (segments_data : Option (List Segment))
    (recommendations_data : List (String × RecEntry)) (annotated_exists : Bool) :
    List (String × OutValue) :=
  let r1 := match segments_data with
    | some segs => aggLoop recommendations_data segs ∅
    | none => []
  let r2 := r1 ++ (match recommendations_data.lookup "overall_outfit" with
    | some overall_data =>
      [("overall_outfit", OutValue.entry (overall_data.type.getD "Complete Outfit") none
        (overall_data.recommendations.getD []))]
    | none => [])
  if annotated_exists then r2 ++ [("annotated_image", OutValue.path "annotated.png")] else r2

/-- A malformed box in the sense of the spec's DegenerateGeometry
condition: `x1 ≥ x2` or `y1 ≥ y2`. -/
def malformed (b : Box) : Prop := b.x2 ≤ b.x1 ∨ b.y2 ≤ b.y1

/-- Two boxes overlap when their intersection rectangle has positive
width and height. -/
def overlapping (b1 b2 : Box) : Prop :=
  max b1.x1 b2.x1 < min b1.x2 b2.x2 ∧ max b1.y1 b2.y1 < min b1.y2 b2.y2

theorem calculate_iou_nonneg (b1 b2 : Box) : 0 ≤ calculate_iou b1 b2 := by
  simp only [calculate_iou]
  split
  · exact le_rfl
  · split
    · rename_i hne hu
      apply div_nonneg
      · push_neg at hne
        have h1 : max b1.x1 b2.x1 < min b1.x2 b2.x2 := hne.1
        have h2 : max b1.y1 b2.y1 < min b1.y2 b2.y2 := hne.2
        have : (0 : ℤ) ≤ (min b1.x2 b2.x2 - max b1.x1 b2.x1) *
            (min b1.y2 b2.y2 - max b1.y1 b2.y1) :=
          le_of_lt (mul_pos (by omega) (by omega))
        exact_mod_cast this
      · exact_mod_cast le_of_lt hu
    · exact le_rfl

theorem calculate_iou_le_one (b1 b2 : Box) : calculate_iou b1 b2 ≤ 1 := by
  simp only [calculate_iou]
  split
  · exact zero_le_one
  · rename_i hne
    push_neg at hne
    have hx : max b1.x1 b2.x1 < min b1.x2 b2.x2 := hne.1
    have hy : max b1.y1 b2.y1 < min b1.y2 b2.y2 := hne.2
    split
    · rename_i hu
      rw [div_le_one (by exact_mod_cast hu)]
      have ha : (0 : ℤ) < min b1.x2 b2.x2 - max b1.x1 b2.x1 := by omega
      have hc : (0 : ℤ) < min b1.y2 b2.y2 - max b1.y1 b2.y1 := by omega
      have hw1 : min b1.x2 b2.x2 - max b1.x1 b2.x1 ≤ b1.x2 - b1.x1 := by omega
      have hh1 : min b1.y2 b2.y2 - max b1.y1 b2.y1 ≤ b1.y2 - b1.y1 := by omega
      have hw2 : min b1.x2 b2.x2 - max b1.x1 b2.x1 ≤ b2.x2 - b2.x1 := by omega
      have hh2 : min b1.y2 b2.y2 - max b1.y1 b2.y1 ≤ b2.y2 - b2.y1 := by omega
      have h1 : (min b1.x2 b2.x2 - max b1.x1 b2.x1) * (min b1.y2 b2.y2 - max b1.y1 b2.y1) ≤
          (b1.x2 - b1.x1) * (b1.y2 - b1.y1) :=
        mul_le_mul hw1 hh1 (le_of_lt hc) (by omega)
      have h2 : (min b1.x2 b2.x2 - max b1.x1 b2.x1) * (min b1.y2 b2.y2 - max b1.y1 b2.y1) ≤
          (b2.x2 - b2.x1) * (b2.y2 - b2.y1) :=
        mul_le_mul hw2 hh2 (le_of_lt hc) (by omega)
      have : (min b1.x2 b2.x2 - max b1.x1 b2.x1) * (min b1.y2 b2.y2 - max b1.y1 b2.y1) ≤
          (b1.x2 - b1.x1) * (b1.y2 - b1.y1) + (b2.x2 - b2.x1) * (b2.y2 - b2.y1) -
          (min b1.x2 b2.x2 - max b1.x1 b2.x1) * (min b1.y2 b2.y2 - max b1.y1 b2.y1) := by
        linarith
      exact_mod_cast this
    · exact zero_le_one

theorem calculate_iou_eq_zero_of_not_overlapping (b1 b2 : Box)
    (h : ¬ overlapping b1 b2) : calculate_iou b1 b2 = 0 := by
  simp only [calculate_iou]
  split
  · rfl
  · rename_i hne
    push_neg at hne
    exact absurd ⟨hne.1, hne.2⟩ h

theorem not_overlapping_of_malformed (b1 b2 : Box)
    (h : malformed b1 ∨ malformed b2) : ¬ overlapping b1 b2 := by
  simp only [malformed, overlapping] at *
  omega

/-- `boxSub a b`: box `b` contains box `a` component-wise. -/
def boxSub (a b : Box) : Prop :=
  b.x1 ≤ a.x1 ∧ b.y1 ≤ a.y1 ∧ a.x2 ≤ b.x2 ∧ a.y2 ≤ b.y2

theorem boxSub_refl (a : Box) : boxSub a a := by
  simp [boxSub]

theorem boxSub_trans {a b c : Box} (h1 : boxSub a b) (h2 : boxSub b c) : boxSub a c := by
  simp only [boxSub] at *
  omega

theorem boxSub_unionBox_left (a b : Box) : boxSub a (unionBox a b) := by
  simp only [boxSub, unionBox]
  omega

theorem mergeInner_used_subset (thr : ℚ) (l : List (Nat × Segment)) :
    ∀ box labels used, used ⊆ (mergeInner thr l box labels used).2.2 := by
  induction l with
  | nil => intro box labels used; simp [mergeInner]
  | cons p rest ih =>
    intro box labels used
    obtain ⟨j, seg2⟩ := p
    simp only [mergeInner]
    split
    · exact ih _ _ _
    · split
      · exact (Finset.subset_insert j used).trans (ih _ _ _)
      · exact ih _ _ _

theorem mergeInner_used_mem (thr : ℚ) (l : List (Nat × Segment)) :
    ∀ box labels used x, x ∈ (mergeInner thr l box labels used).2.2 →
      x ∈ used ∨ x ∈ l.map Prod.fst := by
  induction l with
  | nil => intro box labels used x hx; simp [mergeInner] at hx; exact Or.inl hx
  | cons p rest ih =>
    intro box labels used x hx
    obtain ⟨j, seg2⟩ := p
    simp only [mergeInner] at hx
    split at hx
    · rcases ih _ _ _ _ hx with h | h
      · exact Or.inl h
      · exact Or.inr (List.mem_cons_of_mem _ h)
    · split at hx
      · rcases ih _ _ _ _ hx with h | h
        · rcases Finset.mem_insert.mp h with h' | h'
          · exact Or.inr (by simp [h'])
          · exact Or.inl h'
        · exact Or.inr (List.mem_cons_of_mem _ h)
      · rcases ih _ _ _ _ hx with h | h
        · exact Or.inl h
        · exact Or.inr (List.mem_cons_of_mem _ h)

theorem mergeInner_labels_append (thr : ℚ) (l : List (Nat × Segment)) :
    ∀ box labels used, ∃ extra,
      (mergeInner thr l box labels used).2.1 = labels ++ extra := by
  induction l with
  | nil => intro box labels used; exact ⟨[], by simp [mergeInner]⟩
  | cons p rest ih =>
    intro box labels used
    obtain ⟨j, seg2⟩ := p
    simp only [mergeInner]
    split
    · exact ih _ _ _
    · split
      · obtain ⟨extra, hextra⟩ := ih (unionBox box seg2.bbox) (labels ++ [seg2.label])
          (insert j used)
        exact ⟨seg2.label :: extra, by simpa using hextra⟩
      · exact ih _ _ _

theorem mergeInner_box_grows (thr : ℚ) (l : List (Nat × Segment)) :
    ∀ box labels used, boxSub box (mergeInner thr l box labels used).1 := by
  induction l with
  | nil => intro box labels used; simpa [mergeInner] using boxSub_refl box
  | cons p rest ih =>
    intro box labels used
    obtain ⟨j, seg2⟩ := p
    simp only [mergeInner]
    split
    · exact ih _ _ _
    · split
      · exact boxSub_trans (boxSub_unionBox_left box seg2.bbox) (ih _ _ _)
      · exact ih _ _ _

theorem mergeInner_count (thr : ℚ) (l : List (Nat × Segment)) :
    ∀ box labels used, (l.map Prod.fst).Nodup →
      (l.filter (fun p => p.1 ∉ (mergeInner thr l box labels used).2.2)).length +
        (mergeInner thr l box labels used).2.1.length =
      (l.filter (fun p => p.1 ∉ used)).length + labels.length := by
  induction l with
  | nil => intro box labels used _; simp [mergeInner]
  | cons p rest ih =>
    intro box labels used hnd
    obtain ⟨j, seg2⟩ := p
    simp only [List.map_cons, List.nodup_cons] at hnd
    obtain ⟨hj, hnd'⟩ := hnd
    by_cases h1 : j ∈ used
    · rw [show mergeInner thr ((j, seg2) :: rest) box labels used =
          mergeInner thr rest box labels used from by simp [mergeInner, h1]]
      have hjR : j ∈ (mergeInner thr rest box labels used).2.2 :=
        mergeInner_used_subset thr rest box labels used h1
      have e1 : ((j, seg2) :: rest).filter
            (fun p => p.1 ∉ (mergeInner thr rest box labels used).2.2) =
          rest.filter (fun p => p.1 ∉ (mergeInner thr rest box labels used).2.2) := by
        simp [List.filter_cons, hjR]
      have e2 : ((j, seg2) :: rest).filter (fun p => p.1 ∉ used) =
          rest.filter (fun p => p.1 ∉ used) := by
        simp [List.filter_cons, h1]
      rw [e1, e2]
      exact ih box labels used hnd'
    · by_cases h2 : thr < calculate_iou box seg2.bbox
      · rw [show mergeInner thr ((j, seg2) :: rest) box labels used =
            mergeInner thr rest (unionBox box seg2.bbox) (labels ++ [seg2.label])
              (insert j used) from by simp [mergeInner, h1, h2]]
        have hjR : j ∈ (mergeInner thr rest (unionBox box seg2.bbox)
            (labels ++ [seg2.label]) (insert j used)).2.2 :=
          mergeInner_used_subset thr rest _ _ _ (Finset.mem_insert_self j used)
        have e1 : ((j, seg2) :: rest).filter
              (fun p => p.1 ∉ (mergeInner thr rest (unionBox box seg2.bbox)
                (labels ++ [seg2.label]) (insert j used)).2.2) =
            rest.filter (fun p => p.1 ∉ (mergeInner thr rest (unionBox box seg2.bbox)
              (labels ++ [seg2.label]) (insert j used)).2.2) := by
          simp [List.filter_cons, hjR]
        have e2 : ((j, seg2) :: rest).filter (fun p => p.1 ∉ used) =
            (j, seg2) :: rest.filter (fun p => p.1 ∉ used) := by
          simp [List.filter_cons, h1]
        rw [e1, e2]
        have hcong : rest.filter (fun p => p.1 ∉ insert j used) =
            rest.filter (fun p => p.1 ∉ used) := by
          apply List.filter_congr
          intro a ha
          have haj : a.1 ≠ j := fun h => hj (h ▸ List.mem_map_of_mem Prod.fst ha)
          simp [Finset.mem_insert, haj]
        have ihh := ih (unionBox box seg2.bbox) (labels ++ [seg2.label]) (insert j used) hnd'
        rw [hcong] at ihh
        simp only [List.length_append, List.length_singleton, List.length_cons, List.length_nil] at ihh ⊢
        omega
      · rw [show mergeInner thr ((j, seg2) :: rest) box labels used =
            mergeInner thr rest box labels used from by simp [mergeInner, h1, h2]]
        have hjR : j ∉ (mergeInner thr rest box labels used).2.2 := by
          intro hmem
          rcases mergeInner_used_mem thr rest box labels used j hmem with h | h
          · exact h1 h
          · exact hj h
        have e1 : ((j, seg2) :: rest).filter
              (fun p => p.1 ∉ (mergeInner thr rest box labels used).2.2) =
            (j, seg2) :: rest.filter
              (fun p => p.1 ∉ (mergeInner thr rest box labels used).2.2) := by
          simp [List.filter_cons, hjR]
        have e2 : ((j, seg2) :: rest).filter (fun p => p.1 ∉ used) =
            (j, seg2) :: rest.filter (fun p => p.1 ∉ used) := by
          simp [List.filter_cons, h1]
        rw [e1, e2]
        have := ih box labels used hnd'
        simp only [List.length_cons]
        omega

theorem mergeOuter_sum_lengths (thr : ℚ) (l : List (Nat × Segment)) :
    ∀ used, (l.map Prod.fst).Nodup →
      ((mergeOuter thr l used).map (fun s => (s.merged_labels.getD []).length)).sum =
        (l.filter (fun p => p.1 ∉ used)).length := by
  induction l with
  | nil => intro used _; simp [mergeOuter]
  | cons p rest ih =>
    intro used hnd
    obtain ⟨i, seg1⟩ := p
    simp only [List.map_cons, List.nodup_cons] at hnd
    obtain ⟨hi, hnd'⟩ := hnd
    by_cases h1 : i ∈ used
    · rw [show mergeOuter thr ((i, seg1) :: rest) used = mergeOuter thr rest used from by
        simp [mergeOuter, h1]]
      have e2 : ((i, seg1) :: rest).filter (fun p => p.1 ∉ used) =
          rest.filter (fun p => p.1 ∉ used) := by
        simp [List.filter_cons, h1]
      rw [e2]
      exact ih used hnd'
    · rw [show mergeOuter thr ((i, seg1) :: rest) used =
          { label := (mergeInner thr rest seg1.bbox [seg1.label] (insert i used)).2.1.headD 0,
            bbox := (mergeInner thr rest seg1.bbox [seg1.label] (insert i used)).1,
            merged_labels :=
              some (mergeInner thr rest seg1.bbox [seg1.label] (insert i used)).2.1 } ::
            mergeOuter thr rest
              (mergeInner thr rest seg1.bbox [seg1.label] (insert i used)).2.2 from by
        simp [mergeOuter, h1]]
      have e2 : ((i, seg1) :: rest).filter (fun p => p.1 ∉ used) =
          (i, seg1) :: rest.filter (fun p => p.1 ∉ used) := by
        simp [List.filter_cons, h1]
      rw [e2]
      simp only [List.length_cons, List.map_cons, List.sum_cons, Option.getD_some]
      have hsum := ih (mergeInner thr rest seg1.bbox [seg1.label] (insert i used)).2.2 hnd'
      have hcnt := mergeInner_count thr rest seg1.bbox [seg1.label] (insert i used) hnd'
      have hcong : rest.filter (fun p => p.1 ∉ insert i used) =
          rest.filter (fun p => p.1 ∉ used) := by
        apply List.filter_congr
        intro a ha
        have hai : a.1 ≠ i := fun h => hi (h ▸ List.mem_map_of_mem Prod.fst ha)
        simp [Finset.mem_insert, hai]
      rw [hcong] at hcnt
      simp only [List.length_singleton] at hcnt
      omega

theorem mergeInner_noop (thr : ℚ) (h : 1 ≤ thr) (l : List (Nat × Segment)) :
    ∀ box labels used, mergeInner thr l box labels used = (box, labels, used) := by
  induction l with
  | nil => intro box labels used; simp [mergeInner]
  | cons p rest ih =>
    intro box labels used
    obtain ⟨j, seg2⟩ := p
    have hno : ¬ thr < calculate_iou box seg2.bbox :=
      not_lt.mpr ((calculate_iou_le_one box seg2.bbox).trans h)
    simp only [mergeInner, hno, if_false]
    split
    · exact ih _ _ _
    · exact ih _ _ _

theorem mergeOuter_noop (thr : ℚ) (h : 1 ≤ thr) (l : List (Nat × Segment)) :
    ∀ used, (l.map Prod.fst).Nodup → (∀ p ∈ l, p.1 ∉ used) →
      mergeOuter thr l used =
        l.map (fun p =>
          { label := p.2.label, bbox := p.2.bbox, merged_labels := some [p.2.label] }) := by
  induction l with
  | nil => intro used _ _; simp [mergeOuter]
  | cons p rest ih =>
    intro used hnd hnotin
    obtain ⟨i, seg1⟩ := p
    simp only [List.map_cons, List.nodup_cons] at hnd
    obtain ⟨hifst, hnd'⟩ := hnd
    have hi : i ∉ used := hnotin (i, seg1) (List.mem_cons_self _ _)
    rw [show mergeOuter thr ((i, seg1) :: rest) used =
        { label := (mergeInner thr rest seg1.bbox [seg1.label] (insert i used)).2.1.headD 0,
          bbox := (mergeInner thr rest seg1.bbox [seg1.label] (insert i used)).1,
          merged_labels :=
            some (mergeInner thr rest seg1.bbox [seg1.label] (insert i used)).2.1 } ::
          mergeOuter thr rest
            (mergeInner thr rest seg1.bbox [seg1.label] (insert i used)).2.2 from by
      simp [mergeOuter, hi]]
    rw [mergeInner_noop thr h]
    simp only [List.map_cons, List.headD_cons]
    refine congrArg₂ _ rfl ?_
    apply ih _ hnd'
    intro q hq
    intro hmem
    rcases Finset.mem_insert.mp hmem with h' | h'
    · exact hifst (h' ▸ List.mem_map_of_mem Prod.fst hq)
    · exact hnotin q (List.mem_cons_of_mem _ hq) h'

theorem mergeOuter_labels_sublist (thr : ℚ) (l : List (Nat × Segment)) :
    ∀ used, ∃ s : List (Nat × Segment), s.Sublist l ∧
      (mergeOuter thr l used).map (fun c => c.label) = s.map (fun p => p.2.label) := by
  induction l with
  | nil => intro used; exact ⟨[], List.Sublist.refl [], by simp [mergeOuter]⟩
  | cons p rest ih =>
    intro used
    obtain ⟨i, seg1⟩ := p
    by_cases h1 : i ∈ used
    · obtain ⟨s, hs, he⟩ := ih used
      refine ⟨s, hs.cons _, ?_⟩
      rw [show mergeOuter thr ((i, seg1) :: rest) used = mergeOuter thr rest used from by
        simp [mergeOuter, h1]]
      exact he
    · obtain ⟨s, hs, he⟩ :=
        ih (mergeInner thr rest seg1.bbox [seg1.label] (insert i used)).2.2
      refine ⟨(i, seg1) :: s, hs.cons₂ _, ?_⟩
      rw [show mergeOuter thr ((i, seg1) :: rest) used =
          { label := (mergeInner thr rest seg1.bbox [seg1.label] (insert i used)).2.1.headD 0,
            bbox := (mergeInner thr rest seg1.bbox [seg1.label] (insert i used)).1,
            merged_labels :=
              some (mergeInner thr rest seg1.bbox [seg1.label] (insert i used)).2.1 } ::
            mergeOuter thr rest
              (mergeInner thr rest seg1.bbox [seg1.label] (insert i used)).2.2 from by
        simp [mergeOuter, h1]]
      obtain ⟨extra, hex⟩ :=
        mergeInner_labels_append thr rest seg1.bbox [seg1.label] (insert i used)
      simp only [List.map_cons]
      rw [he]
      refine congrArg₂ _ ?_ rfl
      rw [hex]
      rfl

theorem aggLoop_lookup (recs : List (String × RecEntry)) (segs : List Segment) :
    ∀ (processed : Finset String) (k : String),
      (aggLoop recs segs processed).lookup k =
        if k ∈ processed then none
        else (segs.find? (fun s => toString s.label == k)).bind (fun s =>
          (recs.lookup k).map (fun rd =>
            OutValue.entry (rd.type.getD "Unknown item") (some s.bbox)
              (rd.recommendations.getD []))) := by
  induction segs with
  | nil => intro processed k; simp [aggLoop]
  | cons seg rest ih =>
    intro processed k
    by_cases h1 : toString seg.label ∈ processed
    · rw [show aggLoop recs (seg :: rest) processed = aggLoop recs rest processed from by
        simp [aggLoop, h1]]
      rw [ih processed k]
      by_cases hk : k ∈ processed
      · simp [hk]
      · have hne : (toString seg.label == k) = false := by
          apply beq_eq_false_iff_ne.mpr
          intro he
          exact hk (he ▸ h1)
        rw [List.find?_cons, hne]
    · cases hrec : List.lookup (toString seg.label) recs with
      | some rd =>
        rw [show aggLoop recs (seg :: rest) processed =
            (toString seg.label, OutValue.entry (rd.type.getD "Unknown item") (some seg.bbox)
              (rd.recommendations.getD [])) ::
              aggLoop recs rest (insert (toString seg.label) processed) from by
          simp [aggLoop, h1, hrec]]
        by_cases hk : k = toString seg.label
        · have hkp : k ∉ processed := by rw [hk]; exact h1
          simp [List.lookup_cons, List.find?_cons, hk, h1, hrec]
        · have hne : (k == toString seg.label) = false := beq_eq_false_iff_ne.mpr hk
          have hne' : (toString seg.label == k) = false :=
            beq_eq_false_iff_ne.mpr (fun he => hk he.symm)
          rw [List.lookup_cons]
          rw [hne]
          rw [ih (insert (toString seg.label) processed) k]
          rw [List.find?_cons, hne']
          by_cases hkp : k ∈ processed
          · simp [hkp, Finset.mem_insert]
          · have hn2 : k ∉ insert (toString seg.label) processed := by
              simp [Finset.mem_insert, hk, hkp]
            simp [hn2, hkp]
      | none =>
        rw [show aggLoop recs (seg :: rest) processed =
            aggLoop recs rest (insert (toString seg.label) processed) from by
          simp [aggLoop, h1, hrec]]
        rw [ih (insert (toString seg.label) processed) k]
        by_cases hk : k = toString seg.label
        · simp [List.find?_cons, hk, h1, hrec, Finset.mem_insert_self]
        · have hne' : (toString seg.label == k) = false :=
            beq_eq_false_iff_ne.mpr (fun he => hk he.symm)
          rw [List.find?_cons, hne']
          by_cases hkp : k ∈ processed
          · simp [hkp, Finset.mem_insert]
          · have hn2 : k ∉ insert (toString seg.label) processed := by
              simp [Finset.mem_insert, hk, hkp]
            simp [hn2, hkp]

theorem aggLoop_keys_nodup (recs : List (String × RecEntry)) (segs : List Segment) :
    ∀ processed : Finset String,
      (∀ k ∈ (aggLoop recs segs processed).map Prod.fst, k ∉ processed) ∧
      ((aggLoop recs segs processed).map Prod.fst).Nodup := by
  induction segs with
  | nil => intro processed; simp [aggLoop]
  | cons seg rest ih =>
    intro processed
    by_cases h1 : toString seg.label ∈ processed
    · rw [show aggLoop recs (seg :: rest) processed = aggLoop recs rest processed from by
        simp [aggLoop, h1]]
      exact ih processed
    · cases hrec : List.lookup (toString seg.label) recs with
      | some rd =>
        rw [show aggLoop recs (seg :: rest) processed =
            (toString seg.label, OutValue.entry (rd.type.getD "Unknown item") (some seg.bbox)
              (rd.recommendations.getD [])) ::
              aggLoop recs rest (insert (toString seg.label) processed) from by
          simp [aggLoop, h1, hrec]]
        constructor
        · intro k hk
          simp only [List.map_cons, List.mem_cons] at hk
          rcases hk with rfl | hk
          · exact h1
          · intro hkp
            exact (ih (insert (toString seg.label) processed)).1 k hk
              (Finset.mem_insert_of_mem hkp)
        · simp only [List.map_cons, List.nodup_cons]
          refine ⟨fun hmem => ?_, (ih (insert (toString seg.label) processed)).2⟩
          exact (ih (insert (toString seg.label) processed)).1 _ hmem
            (Finset.mem_insert_self _ _)
      | none =>
        rw [show aggLoop recs (seg :: rest) processed =
            aggLoop recs rest (insert (toString seg.label) processed) from by
          simp [aggLoop, h1, hrec]]
        refine ⟨fun k hk hkp => ?_, (ih (insert (toString seg.label) processed)).2⟩
        exact (ih (insert (toString seg.label) processed)).1 k hk
          (Finset.mem_insert_of_mem hkp)

theorem aggLoop_insert_dead (recs : List (String × RecEntry)) (lab : String)
    (h : List.lookup lab recs = none) (segs : List Segment) :
    ∀ processed : Finset String,
      aggLoop recs segs (insert lab processed) = aggLoop recs segs processed := by
  induction segs with
  | nil => intro processed; simp [aggLoop]
  | cons seg rest ih =>
    intro processed
    by_cases hq : toString seg.label = lab
    · have hmem : toString seg.label ∈ insert lab processed := by
        rw [hq]; exact Finset.mem_insert_self lab processed
      rw [show aggLoop recs (seg :: rest) (insert lab processed) =
          aggLoop recs rest (insert lab processed) from by simp [aggLoop, hmem]]
      by_cases hp : toString seg.label ∈ processed
      · rw [show aggLoop recs (seg :: rest) processed = aggLoop recs rest processed from by
          simp [aggLoop, hp]]
        exact ih processed
      · rw [show aggLoop recs (seg :: rest) processed =
            aggLoop recs rest (insert (toString seg.label) processed) from by
          simp [aggLoop, hp, hq ▸ h]]
        rw [hq]
    · by_cases hp : toString seg.label ∈ processed
      · have hmem : toString seg.label ∈ insert lab processed := Finset.mem_insert_of_mem hp
        rw [show aggLoop recs (seg :: rest) (insert lab processed) =
            aggLoop recs rest (insert lab processed) from by simp [aggLoop, hmem]]
        rw [show aggLoop recs (seg :: rest) processed = aggLoop recs rest processed from by
          simp [aggLoop, hp]]
        exact ih processed
      · have hmem : toString seg.label ∉ insert lab processed := by
          simp [Finset.mem_insert, hq, hp]
        cases hrec : List.lookup (toString seg.label) recs with
        | some rd =>
          rw [show aggLoop recs (seg :: rest) (insert lab processed) =
              (toString seg.label, OutValue.entry (rd.type.getD "Unknown item")
                (some seg.bbox) (rd.recommendations.getD [])) ::
                aggLoop recs rest (insert (toString seg.label) (insert lab processed)) from by
            simp [aggLoop, hmem, hrec]]
          rw [show aggLoop recs (seg :: rest) processed =
              (toString seg.label, OutValue.entry (rd.type.getD "Unknown item")
                (some seg.bbox) (rd.recommendations.getD [])) ::
                aggLoop recs rest (insert (toString seg.label) processed) from by
            simp [aggLoop, hp, hrec]]
          rw [Finset.Insert.comm, ih (insert (toString seg.label) processed)]
        | none =>
          rw [show aggLoop recs (seg :: rest) (insert lab processed) =
              aggLoop recs rest (insert (toString seg.label) (insert lab processed)) from by
            simp [aggLoop, hmem, hrec]]
          rw [show aggLoop recs (seg :: rest) processed =
              aggLoop recs rest (insert (toString seg.label) processed) from by
            simp [aggLoop, hp, hrec]]
          rw [Finset.Insert.comm, ih (insert (toString seg.label) processed)]

theorem aggLoop_drop_dead (recs : List (String × RecEntry)) (s : Segment)
    (h : List.lookup (toString s.label) recs = none) (l1 l2 : List Segment) :
    ∀ processed : Finset String,
      aggLoop recs (l1 ++ s :: l2) processed = aggLoop recs (l1 ++ l2) processed := by
  induction l1 with
  | nil =>
    intro processed
    simp only [List.nil_append]
    by_cases hp : toString s.label ∈ processed
    · rw [show aggLoop recs (s :: l2) processed = aggLoop recs l2 processed from by
        simp [aggLoop, hp]]
    · rw [show aggLoop recs (s :: l2) processed =
          aggLoop recs l2 (insert (toString s.label) processed) from by
        simp [aggLoop, hp, h]]
      exact aggLoop_insert_dead recs (toString s.label) h l2 processed
  | cons a l1 ih =>
    intro processed
    simp only [List.cons_append]
    by_cases hp : toString a.label ∈ processed
    · rw [show aggLoop recs (a :: (l1 ++ s :: l2)) processed =
          aggLoop recs (l1 ++ s :: l2) processed from by simp [aggLoop, hp]]
      rw [show aggLoop recs (a :: (l1 ++ l2)) processed =
          aggLoop recs (l1 ++ l2) processed from by simp [aggLoop, hp]]
      exact ih processed
    · cases hrec : List.lookup (toString a.label) recs with
      | some rd =>
        rw [show aggLoop recs (a :: (l1 ++ s :: l2)) processed =
            (toString a.label, OutValue.entry (rd.type.getD "Unknown item")
              (some a.bbox) (rd.recommendations.getD [])) ::
              aggLoop recs (l1 ++ s :: l2) (insert (toString a.label) processed) from by
          simp [aggLoop, hp, hrec]]
        rw [show aggLoop recs (a :: (l1 ++ l2)) processed =
            (toString a.label, OutValue.entry (rd.type.getD "Unknown item")
              (some a.bbox) (rd.recommendations.getD [])) ::
              aggLoop recs (l1 ++ l2) (insert (toString a.label) processed) from by
          simp [aggLoop, hp, hrec]]
        rw [ih (insert (toString a.label) processed)]
      | none =>
        rw [show aggLoop recs (a :: (l1 ++ s :: l2)) processed =
            aggLoop recs (l1 ++ s :: l2) (insert (toString a.label) processed) from by
          simp [aggLoop, hp, hrec]]
        rw [show aggLoop recs (a :: (l1 ++ l2)) processed =
            aggLoop recs (l1 ++ l2) (insert (toString a.label) processed) from by
          simp [aggLoop, hp, hrec]]
        exact ih (insert (toString a.label) processed)

theorem aggLoop_mem_shape (recs : List (String × RecEntry)) (segs : List Segment) :
    ∀ (processed : Finset String) (k : String) (v : OutValue),
      (k, v) ∈ aggLoop recs segs processed →
      ∃ s rd, s ∈ segs ∧ k = toString s.label ∧ List.lookup k recs = some rd ∧
        v = OutValue.entry (rd.type.getD "Unknown item") (some s.bbox)
          (rd.recommendations.getD []) := by
  induction segs with
  | nil => intro processed k v hv; simp [aggLoop] at hv
  | cons seg rest ih =>
    intro processed k v hv
    by_cases h1 : toString seg.label ∈ processed
    · rw [show aggLoop recs (seg :: rest) processed = aggLoop recs rest processed from by
        simp [aggLoop, h1]] at hv
      obtain ⟨s, rd, hmem, hrest⟩ := ih processed k v hv
      exact ⟨s, rd, List.mem_cons_of_mem _ hmem, hrest⟩
    · cases hrec : List.lookup (toString seg.label) recs with
      | some rd =>
        rw [show aggLoop recs (seg :: rest) processed =
            (toString seg.label, OutValue.entry (rd.type.getD "Unknown item")
              (some seg.bbox) (rd.recommendations.getD [])) ::
              aggLoop recs rest (insert (toString seg.label) processed) from by
          simp [aggLoop, h1, hrec]] at hv
        rcases List.mem_cons.mp hv with heq | hv'
        · obtain ⟨hk, hval⟩ := Prod.mk.injEq .. ▸ heq
          exact ⟨seg, rd, List.mem_cons_self _ _, hk, hk ▸ hrec, hval⟩
        · obtain ⟨s, rd', hmem, hrest⟩ := ih (insert (toString seg.label) processed) k v hv'
          exact ⟨s, rd', List.mem_cons_of_mem _ hmem, hrest⟩
      | none =>
        rw [show aggLoop recs (seg :: rest) processed =
            aggLoop recs rest (insert (toString seg.label) processed) from by
          simp [aggLoop, h1, hrec]] at hv
        obtain ⟨s, rd', hmem, hrest⟩ := ih (insert (toString seg.label) processed) k v hv
        exact ⟨s, rd', List.mem_cons_of_mem _ hmem, hrest⟩

instance (b : Box) : Decidable (malformed b) := by
  unfold malformed
  infer_instance

instance (b1 b2 : Box) : Decidable (overlapping b1 b2) := by
  unfold overlapping
  infer_instance

/-- C1: for every input list of segments and every IoU threshold, the output
of `merge_overlapping_boxes` is a partition of the input indices — each
input segment is consumed by exactly one output cluster, so the total
length of all output clusters' `merged_labels` lists equals the input
length. -/
theorem merger_partitions_input (segs : List Segment) (thr : ℚ) :
    ((merge_overlapping_boxes segs thr).map
      (fun c => (c.merged_labels.getD []).length)).sum = segs.length := by
  by_cases hemp : segs.isEmpty
  · have hseg : segs = [] := List.isEmpty_iff.mp hemp
    subst hseg
    rfl
  · rw [merge_overlapping_boxes, if_neg hemp]
    have hnd : (segs.enum.map Prod.fst).Nodup := by
      rw [List.enum_map_fst]
      exact List.nodup_range _
    rw [mergeOuter_sum_lengths thr segs.enum ∅ hnd]
    have hfil : segs.enum.filter (fun p => p.1 ∉ (∅ : Finset Nat)) = segs.enum := by
      apply List.filter_eq_self.mpr
      intro a _
      simp
    rw [hfil, List.enum_length]

/-- C2: in the merge inner loop, when an unconsumed later candidate's bbox
has IoU with the current accumulator box strictly above the threshold,
the loop continues with the accumulator grown to the component-wise union
and the candidate's label appended; the final accumulator always contains
the box it started from (monotone growth through chained absorption), and
the final label list extends the incoming one with the candidate's label
next, in absorption order. -/
theorem merge_inner_step_absorbs (thr : ℚ) (rest : List (Nat × Segment)) (box : Box)
    (labels : List Int) (used : Finset Nat) (j : Nat) (seg2 : Segment)
    (h1 : j ∉ used) (h2 : thr < calculate_iou box seg2.bbox) :
    mergeInner thr ((j, seg2) :: rest) box labels used =
      mergeInner thr rest (unionBox box seg2.bbox) (labels ++ [seg2.label])
        (insert j used) ∧
    boxSub box (mergeInner thr ((j, seg2) :: rest) box labels used).1 ∧
    ∃ extra, (mergeInner thr ((j, seg2) :: rest) box labels used).2.1 =
      labels ++ seg2.label :: extra := by
  have hstep : mergeInner thr ((j, seg2) :: rest) box labels used =
      mergeInner thr rest (unionBox box seg2.bbox) (labels ++ [seg2.label])
        (insert j used) := by
    simp [mergeInner, h1, h2]
  refine ⟨hstep, ?_, ?_⟩
  · rw [hstep]
    exact boxSub_trans (boxSub_unionBox_left box seg2.bbox)
      (mergeInner_box_grows thr rest _ _ _)
  · rw [hstep]
    obtain ⟨extra, hex⟩ := mergeInner_labels_append thr rest (unionBox box seg2.bbox)
      (labels ++ [seg2.label]) (insert j used)
    refine ⟨extra, ?_⟩
    rw [hex, List.append_assoc]
    rfl

/-- Witness for C2 at a concrete absorbing step. -/
theorem merge_inner_step_absorbs_witness :
    ((1 : Nat) ∉ (∅ : Finset Nat)) ∧
    ((3 : ℚ) / 10 < calculate_iou ⟨0, 0, 10, 10⟩ ⟨2, 2, 12, 12⟩) ∧
    (mergeInner (3 / 10) [(1, { label := 8, bbox := ⟨2, 2, 12, 12⟩ })]
        ⟨0, 0, 10, 10⟩ [7] ∅ =
      mergeInner (3 / 10) [] (unionBox ⟨0, 0, 10, 10⟩ ⟨2, 2, 12, 12⟩) ([7] ++ [8])
        (insert 1 ∅) ∧
    boxSub ⟨0, 0, 10, 10⟩
      (mergeInner (3 / 10) [(1, { label := 8, bbox := ⟨2, 2, 12, 12⟩ })]
        ⟨0, 0, 10, 10⟩ [7] ∅).1 ∧
    ∃ extra, (mergeInner (3 / 10) [(1, { label := 8, bbox := ⟨2, 2, 12, 12⟩ })]
        ⟨0, 0, 10, 10⟩ [7] ∅).2.1 = [7] ++ 8 :: extra) :=
  ⟨by decide, by norm_num [calculate_iou],
    merge_inner_step_absorbs (3 / 10) [] ⟨0, 0, 10, 10⟩ [7] ∅ 1
      { label := 8, bbox := ⟨2, 2, 12, 12⟩ } (by decide) (by norm_num [calculate_iou])⟩

/-- C9: with an unreachable IoU threshold (≥ 1), merging N segments yields
N singleton clusters in the original order, each with `merged_labels`
equal to the one-element list of that segment's label and the segment's
own bbox. -/
theorem merge_noop_threshold (segs : List Segment) (thr : ℚ) (h : 1 ≤ thr) :
    merge_overlapping_boxes segs thr =
      segs.map (fun s =>
        { label := s.label, bbox := s.bbox, merged_labels := some [s.label] }) := by
  by_cases hemp : segs.isEmpty
  · have hseg : segs = [] := List.isEmpty_iff.mp hemp
    subst hseg
    rfl
  · rw [merge_overlapping_boxes, if_neg hemp]
    have hnd : (segs.enum.map Prod.fst).Nodup := by
      rw [List.enum_map_fst]
      exact List.nodup_range _
    rw [mergeOuter_noop thr h segs.enum ∅ hnd (by intro p _; simp)]
    rw [show (fun p : Nat × Segment =>
        ({ label := p.2.label, bbox := p.2.bbox,
           merged_labels := some [p.2.label] } : Segment)) =
        (fun s : Segment =>
          ({ label := s.label, bbox := s.bbox,
             merged_labels := some [s.label] } : Segment)) ∘ Prod.snd from rfl]
    rw [← List.map_map, List.enum_map_snd]

/-- Witness for C9 at threshold 1 on a concrete segment list. -/
theorem merge_noop_threshold_witness :
    ((1 : ℚ) ≤ 1) ∧
    merge_overlapping_boxes
        [{ label := 7, bbox := ⟨0, 0, 10, 10⟩ }, { label := 9, bbox := ⟨0, 0, 10, 10⟩ }] 1 =
      [{ label := 7, bbox := ⟨0, 0, 10, 10⟩, merged_labels := some [7] },
       { label := 9, bbox := ⟨0, 0, 10, 10⟩, merged_labels := some [9] }] :=
  ⟨le_rfl, merge_noop_threshold _ 1 le_rfl⟩

/-- C10: the merger's output clusters are seeded along a forward scan of
the input — there is a sublist of the enumerated input (so its original
indices are strictly increasing) whose labels are exactly the output's
primary labels; hence the output's primary-label sequence is a
subsequence of the input label sequence and the output is never longer
than the input. -/
theorem merge_seeds_increasing (segs : List Segment) (thr : ℚ) :
    ∃ seeds : List (Nat × Segment), seeds.Sublist segs.enum ∧
      (seeds.map Prod.fst).Pairwise (· < ·) ∧
      (merge_overlapping_boxes segs thr).map (fun c => c.label) =
        seeds.map (fun p => p.2.label) ∧
      ((merge_overlapping_boxes segs thr).map (fun c => c.label)).Sublist
        (segs.map (fun s => s.label)) ∧
      (merge_overlapping_boxes segs thr).length ≤ segs.length := by
  by_cases hemp : segs.isEmpty
  · have hseg : segs = [] := List.isEmpty_iff.mp hemp
    subst hseg
    refine ⟨[], ?_, ?_, ?_, ?_, ?_⟩ <;> simp [merge_overlapping_boxes]
  · obtain ⟨s, hs, he⟩ := mergeOuter_labels_sublist thr segs.enum ∅
    have hm : merge_overlapping_boxes segs thr = mergeOuter thr segs.enum ∅ := by
      rw [merge_overlapping_boxes, if_neg hemp]
    refine ⟨s, hs, ?_, ?_, ?_, ?_⟩
    · have h1 : (segs.enum.map Prod.fst).Pairwise (· < ·) := by
        rw [List.enum_map_fst]
        exact List.pairwise_lt_range _
      exact h1.sublist (hs.map Prod.fst)
    · rw [hm]
      exact he
    · rw [hm, he]
      have h2 : (s.map Prod.snd).Sublist (segs.enum.map Prod.snd) := hs.map _
      rw [List.enum_map_snd] at h2
      have h3 := h2.map (fun t : Segment => t.label)
      rw [List.map_map] at h3
      exact h3
    · rw [hm]
      calc (mergeOuter thr segs.enum ∅).length
          = ((mergeOuter thr segs.enum ∅).map (fun c => c.label)).length :=
            (List.length_map _ _).symm
        _ = (s.map (fun p => p.2.label)).length := by rw [he]
        _ = s.length := List.length_map _ _
        _ ≤ segs.enum.length := hs.length_le
        _ = segs.length := List.enum_length

/-- C3: the aggregator output has no duplicate label keys, and the lookup of
every key equals the entry built from the FIRST segment in input order
carrying that label (its bbox) joined with the recommendations document;
later duplicates contribute nothing. -/
theorem aggregator_dedups_labels (recs : List (String × RecEntry)) (segs : List Segment) :
    ((aggLoop recs segs ∅).map Prod.fst).Nodup ∧
    ∀ k : String, (aggLoop recs segs ∅).lookup k =
      (segs.find? (fun s => toString s.label == k)).bind (fun s =>
        (List.lookup k recs).map (fun rd =>
          OutValue.entry (rd.type.getD "Unknown item") (some s.bbox)
            (rd.recommendations.getD []))) := by
  refine ⟨(aggLoop_keys_nodup recs segs ∅).2, fun k => ?_⟩
  rw [aggLoop_lookup recs segs ∅ k]
  simp

/-- C4 counterexample: with both stages skipped the pipeline of `main`
returns the raw segment list as-is, with no `merged_labels` key added, so
the output is not the input wrapped with `merged_labels = [label]`. -/
theorem consolidate_skip_both_counterexample :
    consolidate [{ label := 5, bbox := ⟨0, 0, 10, 10⟩ }] 1000 (3 / 10) none true true ≠
      ([{ label := 5, bbox := ⟨0, 0, 10, 10⟩ }] : List Segment).map
        (fun s => { s with merged_labels := some [s.label] }) := by
  decide

/-- C4 (amended): when both the filter flag and the merge flag are set, the
raw segment list is returned entirely unchanged (no `merged_labels`
wrapping is performed). -/
theorem consolidate_skip_both_id (segs : List Segment) (min_area iou_threshold : ℚ)
    (image_size : Option (Int × Int)) :
    consolidate segs min_area iou_threshold image_size true true = segs := rfl

/-- C5: for every pair of integer boxes, including malformed ones,
`calculate_iou` returns a value in [0, 1], and returns exactly 0 whenever
either box is malformed or the boxes do not overlap. -/
theorem iou_bounded_and_degenerate_zero (b1 b2 : Box) :
    0 ≤ calculate_iou b1 b2 ∧ calculate_iou b1 b2 ≤ 1 ∧
      ((malformed b1 ∨ malformed b2 ∨ ¬ overlapping b1 b2) → calculate_iou b1 b2 = 0) := by
  refine ⟨calculate_iou_nonneg b1 b2, calculate_iou_le_one b1 b2, fun h => ?_⟩
  rcases h with h | h | h
  · exact calculate_iou_eq_zero_of_not_overlapping b1 b2
      (not_overlapping_of_malformed b1 b2 (Or.inl h))
  · exact calculate_iou_eq_zero_of_not_overlapping b1 b2
      (not_overlapping_of_malformed b1 b2 (Or.inr h))
  · exact calculate_iou_eq_zero_of_not_overlapping b1 b2 h

/-- Witness for C5 at a malformed box (x1 ≥ x2). -/
theorem iou_bounded_and_degenerate_zero_witness :
    (malformed ⟨5, 0, 2, 10⟩ ∨ malformed ⟨0, 0, 10, 10⟩ ∨
      ¬ overlapping ⟨5, 0, 2, 10⟩ ⟨0, 0, 10, 10⟩) ∧
    calculate_iou ⟨5, 0, 2, 10⟩ ⟨0, 0, 10, 10⟩ = 0 :=
  ⟨Or.inl (by decide),
    (iou_bounded_and_degenerate_zero ⟨5, 0, 2, 10⟩ ⟨0, 0, 10, 10⟩).2.2 (Or.inl (by decide))⟩

/-- C6: the filter keeps exactly the segments whose bbox area is at least
`max t (w*h/100)` when image dimensions are supplied (just `t` when they
are not), as an order-preserving sub-sequence of the input with no
segment modified, and empty input yields empty output. -/
theorem filter_small_segments_spec (segs : List Segment) (t : ℚ) (w h : Int) :
    filter_small_segments segs t (some (w, h)) =
      segs.filter (fun s =>
        max t ((w * h : ℚ) * (1 / 100)) ≤
          (((s.bbox.x2 - s.bbox.x1) * (s.bbox.y2 - s.bbox.y1) : ℤ) : ℚ)) ∧
    filter_small_segments segs t none =
      segs.filter (fun s =>
        t ≤ (((s.bbox.x2 - s.bbox.x1) * (s.bbox.y2 - s.bbox.y1) : ℤ) : ℚ)) ∧
    (filter_small_segments segs t (some (w, h))).Sublist segs ∧
    (filter_small_segments segs t none).Sublist segs ∧
    filter_small_segments [] t (some (w, h)) = [] ∧
    filter_small_segments [] t none = [] :=
  ⟨rfl, rfl, List.filter_sublist _, List.filter_sublist _, rfl, rfl⟩

/-- C7: a consolidated segment whose label string has no entry in the
recommendations document contributes nothing: deleting it from the input
leaves the aggregator output unchanged, and no output entry exists under
its label key. -/
theorem aggregator_missing_rec_omitted (recs : List (String × RecEntry)) (s : Segment)
    (l1 l2 : List Segment) (segs : List Segment) (processed : Finset String)
    (h : List.lookup (toString s.label) recs = none) :
    aggLoop recs (l1 ++ s :: l2) processed = aggLoop recs (l1 ++ l2) processed ∧
    (aggLoop recs segs ∅).lookup (toString s.label) = none := by
  refine ⟨aggLoop_drop_dead recs s h l1 l2 processed, ?_⟩
  rw [aggLoop_lookup recs segs ∅ (toString s.label)]
  simp only [Finset.not_mem_empty, if_false]
  cases segs.find? (fun t => toString t.label == toString s.label) with
  | none => rfl
  | some t => simp [h]

/-- Witness for C7: a segment with label 5 and an empty recommendations
document. -/
theorem aggregator_missing_rec_omitted_witness :
    (List.lookup (toString (5 : Int)) ([] : List (String × RecEntry)) = none) ∧
    aggLoop [] ([] ++ ({ label := 5, bbox := ⟨0, 0, 3, 3⟩ } : Segment) :: []) ∅ =
      aggLoop [] ([] ++ []) ∅ ∧
    (aggLoop ([] : List (String × RecEntry))
      [{ label := 5, bbox := ⟨0, 0, 3, 3⟩ }] ∅).lookup (toString (5 : Int)) = none :=
  ⟨rfl,
    (aggregator_missing_rec_omitted [] { label := 5, bbox := ⟨0, 0, 3, 3⟩ } [] []
      [{ label := 5, bbox := ⟨0, 0, 3, 3⟩ }] ∅ rfl).1,
    (aggregator_missing_rec_omitted [] { label := 5, bbox := ⟨0, 0, 3, 3⟩ } [] []
      [{ label := 5, bbox := ⟨0, 0, 3, 3⟩ }] ∅ rfl).2⟩

/-- C8 counterexample: an `overall_outfit` entry with a missing `type`
field is emitted with type "Complete Outfit", not "Unknown item" as the
claim states for all entries alike. -/
theorem aggregator_overall_default_counterexample :
    run_pipeline_results none
        [("overall_outfit", { type := none, recommendations := none })] false =
      [("overall_outfit", OutValue.entry "Complete Outfit" none [])] ∧
    ("Complete Outfit" : String) ≠ "Unknown item" :=
  ⟨rfl, by decide⟩

/-- C8 (amended): per-item entries default a missing `type` to
"Unknown item" and missing `recommendations` to the empty list; the
reserved `overall_outfit` entry defaults a missing `type` to
"Complete Outfit" (not "Unknown item") and missing `recommendations` to
the empty list. -/
theorem aggregator_defaults (recs : List (String × RecEntry)) (segs : List Segment)
    (sd : Option (List Segment)) (annot : Bool) (od : RecEntry)
    (h : List.lookup "overall_outfit" recs = some od) :
    (∀ k v, (k, v) ∈ aggLoop recs segs ∅ →
      ∃ s rd, s ∈ segs ∧ k = toString s.label ∧ List.lookup k recs = some rd ∧
        v = OutValue.entry (rd.type.getD "Unknown item") (some s.bbox)
          (rd.recommendations.getD [])) ∧
    ("overall_outfit", OutValue.entry (od.type.getD "Complete Outfit") none
      (od.recommendations.getD [])) ∈ run_pipeline_results sd recs annot := by
  constructor
  · intro k v hv
    exact aggLoop_mem_shape recs segs ∅ k v hv
  · simp only [run_pipeline_results, h]
    cases annot
    · simp [List.mem_append]
    · simp [List.mem_append]

/-- Witness for C8 (amended) on a concrete overall-outfit entry with no
type field. -/
theorem aggregator_defaults_witness :
    (List.lookup "overall_outfit"
      [("overall_outfit", ({ type := none, recommendations := some ["x"] } : RecEntry))] =
      some { type := none, recommendations := some ["x"] }) ∧
    ("overall_outfit", OutValue.entry "Complete Outfit" none ["x"]) ∈
      run_pipeline_results none
        [("overall_outfit", { type := none, recommendations := some ["x"] })] false :=
  ⟨rfl, (aggregator_defaults
    [("overall_outfit", { type := none, recommendations := some ["x"] })] [] none false
    { type := none, recommendations := some ["x"] } rfl).2⟩

end RecPipeline
